import Mathlib

/-!
Verification development for the Euronext-to-Webflow press-release pipeline.

The definitions below are a shallow embedding of the JavaScript source:

* `src/utils.js` — `generateReleaseId`, `cleanHtmlContent`, and the retry /
  schedule helpers.
* `src/scraper.js` — `fetchPressReleaseList` (selector chain, cutoff filter,
  sort), `fetchPressReleaseContent` (modal extraction, browser lifecycle),
  `getLatestReleases`.
* `src/webflow.js` — `generateSlug`, `generateUniqueSlug`, `itemExists`,
  `createItems`.
* `index.js` — the run loop's persisted-store error bookkeeping and the
  per-run record cap.

Modelling conventions:

* JavaScript strings are Lean `String`s; the per-code-unit operations are
  modelled per code point (all relevant data is ASCII).
* `new Date(s)` is modelled by `jsParseDate`, which accepts the two formats
  the pipeline actually handles — ISO `YYYY-MM-DD` and `DD Mon YYYY` — and
  reports everything else as unparsable (JS `Invalid Date`).  Timestamps are
  modelled by the order-preserving encoding `encodeYMD`; the runtime is
  taken to be in UTC (the GitHub-Actions environment the tool runs in), so
  both formats denote midnight of the same calendar day.
* The ambient current time (`new Date()` with no argument) is passed in
  explicitly as a `YMD` argument named `today`.
* Network, DOM and browser effects are passed in as explicit oracles: the
  page markup becomes per-selector row lists, the CMS collection state
  becomes the list of slugs it contains, and each fallible call's outcome
  becomes an oracle value.
-/

/-- JavaScript `\s` / `String.prototype.trim` whitespace class. -/
def isJsWs (c : Char) : Bool :=
  c = ' ' ∨ c = '\t' ∨ c = '\n' ∨ c = '\r' ∨ c.toNat = 11 ∨ c.toNat = 12 ∨
  c.toNat = 160 ∨ c.toNat = 0x1680 ∨ (0x2000 ≤ c.toNat ∧ c.toNat ≤ 0x200a) ∨
  c.toNat = 0x2028 ∨ c.toNat = 0x2029 ∨ c.toNat = 0x202f ∨ c.toNat = 0x205f ∨
  c.toNat = 0x3000 ∨ c.toNat = 0xfeff

/-- Strip leading and trailing JS whitespace from a character list
(`String.prototype.trim`). -/
def trimL (l : List Char) : List Char :=
  ((l.dropWhile isJsWs).reverse.dropWhile isJsWs).reverse

/-- JS `String.prototype.trim`. -/
def jsTrimStr (s : String) : String :=
  (trimL s.toList).asString

/-- ASCII lower-casing of one character. -/
def asciiLower (c : Char) : Char :=
  if 'A' ≤ c ∧ c ≤ 'Z' then Char.ofNat (c.toNat + 32) else c

/-- JS `String.prototype.toLowerCase`, ASCII fragment. -/
def jsToLower (s : String) : String :=
  (s.toList.map asciiLower).asString

/-- Split a character list at every occurrence of `sep`, keeping empty
segments (single-character `String.prototype.split`). -/
def splitAtChar (sep : Char) (l : List Char) : List (List Char) :=
  l.foldr
    (fun c acc =>
      match acc with
      | [] => [[c]]
      | a :: as => if c = sep then [] :: a :: as else (c :: a) :: as)
    [[]]

/-- Does `l` start with the character list `p`? (JS `String.prototype.startsWith`.) -/
def startsWithL : List Char → List Char → Bool
  | _, [] => true
  | [], _ :: _ => false
  | c :: cs, p :: ps => c = p ∧ startsWithL cs ps

/-- Calendar date (year, month, day), the payload of a valid JS `Date`
restricted to day precision — the only precision the pipeline compares at. -/
structure YMD where
  y : Nat
  m : Nat
  d : Nat
deriving DecidableEq, Repr

/-- Order-preserving encoding of calendar dates, standing in for
`Date.prototype.getTime` (month < 16 and day < 32, so lexicographic order
on (y, m, d) coincides with numeric order of the encoding). -/
def encodeYMD (x : YMD) : Nat :=
  x.y * 512 + x.m * 32 + x.d

def isLeapYear (y : Nat) : Bool :=
  (y % 4 = 0 ∧ y % 100 ≠ 0) ∨ y % 400 = 0

def daysInMonth (y m : Nat) : Nat :=
  if m = 2 then (if isLeapYear y then 29 else 28)
  else if m = 4 ∨ m = 6 ∨ m = 9 ∨ m = 11 then 30
  else 31

/-- Decimal digits to a number; `none` when empty or non-numeric. -/
def digitsToNat (cs : List Char) : Option Nat :=
  if cs ≠ [] ∧ cs.all (fun c => '0' ≤ c ∧ c ≤ '9') then
    some (cs.foldl (fun n c => n * 10 + (c.toNat - 48)) 0)
  else none

def monthOfAbbrev (s : List Char) : Option Nat :=
  match s with
  | ['J', 'a', 'n'] => some 1
  | ['F', 'e', 'b'] => some 2
  | ['M', 'a', 'r'] => some 3
  | ['A', 'p', 'r'] => some 4
  | ['M', 'a', 'y'] => some 5
  | ['J', 'u', 'n'] => some 6
  | ['J', 'u', 'l'] => some 7
  | ['A', 'u', 'g'] => some 8
  | ['S', 'e', 'p'] => some 9
  | ['O', 'c', 't'] => some 10
  | ['N', 'o', 'v'] => some 11
  | ['D', 'e', 'c'] => some 12
  | _ => none

/-- ISO `YYYY-MM-DD` date-only parse (the format of the configured cutoff
date and of the keys the pipeline itself generates). -/
def parseIsoYmd (t : List Char) : Option YMD :=
  match splitAtChar '-' t with
  | [ys, ms, ds] =>
    if ys.length = 4 ∧ ms.length = 2 ∧ ds.length = 2 then
      match digitsToNat ys, digitsToNat ms, digitsToNat ds with
      | some y, some m, some d =>
        if 1 ≤ m ∧ m ≤ 12 ∧ 1 ≤ d ∧ d ≤ daysInMonth y m then some ⟨y, m, d⟩ else none
      | _, _, _ => none
    else none
  | _ => none

/-- `DD Mon YYYY` parse, the date format of the Euronext listing rows. -/
def parseDayMonYear (t : List Char) : Option YMD :=
  match (splitAtChar ' ' t).filter (fun w => w ≠ []) with
  | [ds, mon, ys] =>
    match digitsToNat ds, monthOfAbbrev mon, digitsToNat ys with
    | some d, some m, some y =>
      if ds.length ≤ 2 ∧ ys.length = 4 ∧ 1 ≤ d ∧ d ≤ daysInMonth y m then
        some ⟨y, m, d⟩
      else none
    | _, _, _ => none
  | _ => none

/-- Model of JS `new Date(s)` at day precision: `some` exactly when the text
is a date the pipeline can handle, `none` for `Invalid Date`. -/
def jsParseDate (s : String) : Option YMD :=
  let t := trimL s.toList
  match parseIsoYmd t with
  | some d => some d
  | none => parseDayMonYear t

/-- Zero-padded decimal rendering (`String.prototype.padStart(w, "0")`). -/
def padZeros (w : Nat) (n : Nat) : String :=
  let s := toString n
  if s.length < w then (List.replicate (w - s.length) '0').asString ++ s else s

/-- The `YYYY-MM-DD` day part of `Date.prototype.toISOString`. -/
def isoDay (x : YMD) : String :=
  padZeros 4 x.y ++ "-" ++ padZeros 2 x.m ++ "-" ++ padZeros 2 x.d

/-- `title.toLowerCase().replace(/[^a-z0-9]/g, '-')` from
`generateReleaseId` (src/utils.js). -/
def releaseCleanTitle (title : String) : String :=
  ((jsToLower title).toList.map
    (fun c => if ('a' ≤ c ∧ c ≤ 'z') ∨ ('0' ≤ c ∧ c ≤ '9') then c else '-')).asString

/-- `generateReleaseId` from src/utils.js.  `today` is the calendar day of
the ambient `new Date()` used by the documented fallback when `date` fails
to parse.  The result is `substring(0, 100)` of `dateStr + "-" + cleanTitle`. -/
def generateReleaseId (title date : String) (today : YMD) : String :=
  let dateStr :=
    match jsParseDate date with
    | some d => isoDay d
    | none => isoDay today
  ((dateStr ++ "-" ++ releaseCleanTitle title).toList.take 100).asString

/-- One entry of the persisted store's `stats.errors` history
(index.js): a per-record publish error or the fatal-run marker. -/
inductive ErrEntry where
  | runErr (title message timestamp : String)
  | fatalErr (message timestamp : String)
deriving DecidableEq, Repr

/-- JS `Array.prototype.slice(-n)`: the last `n` elements. -/
def jsSliceLast (n : Nat) (l : List α) : List α :=
  l.drop (l.length - n)

/-- The successful-run update of `stats.errors` in `run()` (index.js):
`[...processedData.stats.errors.slice(-10), ...newErrors].slice(-10)`. -/
def updateRunErrors (old newErrs : List ErrEntry) : List ErrEntry :=
  jsSliceLast 10 (jsSliceLast 10 old ++ newErrs)

/-- The fatal-path update of `stats.errors` in `run()`'s catch block
(index.js): `processedData.stats.errors.push(entry)` — a plain append. -/
def fatalAppendErrors (old : List ErrEntry) (e : ErrEntry) : List ErrEntry :=
  old ++ [e]

/-- A scraped listing record as produced by `fetchPressReleaseList`
(src/scraper.js). -/
structure Release where
  title : String
  dateText : String
  url : String
  nodeId : Option String
  id : String
  rawDate : String
deriving DecidableEq, Repr

/-- A record after `fetchPressReleaseContent` has attached body content. -/
structure ScrapedRelease where
  base : Release
  content : String
  publishDate : String
deriving DecidableEq, Repr

/-- `getLatestReleases(limit)` (src/scraper.js): slice the sorted list to
the first `limit` records, then fetch content for each; a record whose
content fetch throws is skipped with a warning.  `fetchOracle` is the
outcome of `fetchPressReleaseContent` per record (`none` = the call threw). -/
def getLatestReleases (fetchOracle : Release → Option ScrapedRelease)
    (limit : Nat) (releases : List Release) : List ScrapedRelease :=
  (releases.take limit).filterMap fetchOracle

/-- `const limit = testMode ? 3 : 10` from `run()` in index.js. -/
def runLimit (testMode : Bool) : Nat :=
  if testMode then 3 else 10

/-- One maximal-whitespace-run collapse step machine:
`html.replace(/\s+/g, ' ')` from `cleanHtmlContent` (src/utils.js).
`prevWs` records whether the previous character was whitespace (in which
case the current run has already emitted its single `' '`). -/
def collapseWsGo (prevWs : Bool) : List Char → List Char
  | [] => []
  | c :: cs =>
    if isJsWs c then
      (if prevWs then collapseWsGo true cs else ' ' :: collapseWsGo true cs)
    else c :: collapseWsGo false cs

/-- `html.replace(/\s+/g, ' ')`. -/
def collapseWsL (l : List Char) : List Char :=
  collapseWsGo false l

/-- `html.replace(/>\s+</g, '><')` from `cleanHtmlContent` (src/utils.js):
left-to-right global regex replacement; after a replacement the scan
continues past the inserted `'><'`. -/
def gapRemoveL (l : List Char) : List Char :=
  match l with
  | [] => []
  | c :: cs =>
    if c = '>' ∧ cs.takeWhile isJsWs ≠ [] ∧ (cs.dropWhile isJsWs).head? = some '<' then
      '>' :: '<' :: gapRemoveL (cs.dropWhile isJsWs).tail
    else c :: gapRemoveL cs
termination_by l.length
decreasing_by
· simp only [List.length_cons]
  have h1 : ((cs.dropWhile isJsWs).tail).length ≤ (cs.dropWhile isJsWs).length := by
    cases cs.dropWhile isJsWs <;> simp
  have h2 : (cs.dropWhile isJsWs).length ≤ cs.length :=
    (List.dropWhile_sublist _).length_le
  omega
· simp only [List.length_cons]
  exact Nat.lt_succ_self _

/-- `cleanHtmlContent` from src/utils.js:
`html.replace(/\s+/g, ' ').replace(/>\s+</g, '><').trim()`. -/
def cleanHtmlContent (s : String) : String :=
  (trimL (gapRemoveL (collapseWsL s.toList))).asString

/-- A record as consumed by the Webflow publisher (src/webflow.js): the
scraped release after content extraction. -/
structure PressRelease where
  title : String
  publishDate : String
  content : String
  url : String
  id : String
deriving DecidableEq, Repr

/-- The character class kept by `generateSlug`'s
`replace(/[^a-z0-9\\s-]/g, '')` (src/webflow.js).  Inside the class the
source's `\\s` is an escaped backslash followed by a literal `s`, so the
kept characters are `a``-``z`, `0``-``9`, backslash and `-`. -/
def keepSlugChar (c : Char) : Bool :=
  ('a' ≤ c ∧ c ≤ 'z') ∨ ('0' ≤ c ∧ c ≤ '9') ∨ c = '\\' ∨ c = '-'

/-- `replace(/\\s+/g, '-')` from `generateSlug` (src/webflow.js): the
pattern is a literal backslash followed by one or more `s`; each maximal
match becomes one `-`.  `dropping` is true while consuming the `s`-run of a
match already begun. -/
def replBSGo (dropping : Bool) : List Char → List Char
  | [] => []
  | c :: cs =>
    if dropping ∧ c = 's' then replBSGo true cs
    else if c = '\\' ∧ cs.head? = some 's' then '-' :: replBSGo true cs
    else c :: replBSGo false cs

def replBS (l : List Char) : List Char :=
  replBSGo false l

/-- The dash-run replacement (global regex, one or more dashes to a single
dash) from `generateSlug` (src/webflow.js). -/
def collapseDashesGo (prevDash : Bool) : List Char → List Char
  | [] => []
  | c :: cs =>
    if c = '-' then
      (if prevDash then collapseDashesGo true cs else '-' :: collapseDashesGo true cs)
    else c :: collapseDashesGo false cs

def collapseDashes (l : List Char) : List Char :=
  collapseDashesGo false l

/-- `generateSlug(title)` from src/webflow.js (the "legacy" slug):
lower-case, strip characters outside the class above, apply the two regex
replacements, `trim` (JS `trim` takes no argument, so `.trim('-')` trims
whitespace), and truncate to 100 characters. -/
def generateSlug (title : String) : String :=
  ((trimL (collapseDashes (replBS
    ((jsToLower title).toList.filter keepSlugChar)))).take 100).asString

/-- `generateUniqueSlug(title, publishDate)` from src/webflow.js: the legacy
slug plus a `-YYYY-MM-DD` suffix when the publish date parses (month and day
zero-padded, from the parsed date), nothing otherwise, truncated to 100.
The `catch` arm of the source is unreachable (`new Date` does not throw). -/
def generateUniqueSlug (title publishDate : String) : String :=
  let datePart : List Char :=
    match jsParseDate publishDate with
    | some d =>
      ('-' :: (toString d.y).toList) ++ ('-' :: (padZeros 2 d.m).toList) ++
        ('-' :: (padZeros 2 d.d).toList)
    | none => []
  (((generateSlug title).toList ++ datePart).take 100).asString

/-- The slug a record is stored under remotely — used both by `createItem`
when writing and by `itemExists` when checking (src/webflow.js). -/
def slugOf (r : PressRelease) : String :=
  generateUniqueSlug r.title r.publishDate

/-- `itemExists(pressRelease)` from src/webflow.js: fetch the collection
items and look for one whose `fieldData.slug` equals the record's unique
slug.  The remote collection state is modelled as the list of slugs it
contains. -/
def itemExists (slugs : List String) (r : PressRelease) : Bool :=
  (slugs.find? (fun s => s == slugOf r)).isSome

/-- Outcome of one `createItem` call (creation plus bounded retry): either
the item is created, or retry is exhausted with an error message. -/
inductive CreateOutcome where
  | ok
  | err (msg : String)
deriving DecidableEq, Repr

/-- `{created, skipped, errors}` as accumulated by `createItems`
(src/webflow.js).  A `created` entry carries the record together with the
slug written remotely; an `errors` entry carries the causal message. -/
structure BatchResult where
  created : List (PressRelease × String)
  skipped : List PressRelease
  errors : List (PressRelease × String)
deriving DecidableEq, Repr

/-- `createItems(pressReleases)` from src/webflow.js, processing records
sequentially against the remote collection state: an existence hit goes to
`skipped`; otherwise `createItem` runs (outcome given by `createOracle`) and
the record goes to `created` — adding its slug to the remote state — or, on
an exception, to `errors`.  Returns the batch result and the final remote
state. -/
def createItems (createOracle : PressRelease → CreateOutcome) :
    List PressRelease → List String → BatchResult × List String
  | [], st => (⟨[], [], []⟩, st)
  | r :: rest, st =>
    if itemExists st r then
      let p := createItems createOracle rest st
      (⟨p.1.created, r :: p.1.skipped, p.1.errors⟩, p.2)
    else
      match createOracle r with
      | CreateOutcome.ok =>
        let p := createItems createOracle rest (st ++ [slugOf r])
        (⟨(r, slugOf r) :: p.1.created, p.1.skipped, p.1.errors⟩, p.2)
      | CreateOutcome.err m =>
        let p := createItems createOracle rest st
        (⟨p.1.created, p.1.skipped, (r, m) :: p.1.errors⟩, p.2)

/-- The oracle for runs in which every `createItem` call succeeds. -/
def okOracle : PressRelease → CreateOutcome := fun _ => CreateOutcome.ok

/-- `release.rawDate || release.dateText` (src/scraper.js; the empty string
is falsy). -/
def rawOrText (r : Release) : String :=
  if r.rawDate = "" then r.dateText else r.rawDate

/-- The cutoff filter's date-text preparation (src/scraper.js): if the text
contains a newline — the `"27 Jun 2025\n07:45 CEST"` listing format — keep
only the part before it, trimmed. -/
def stripNewlinePart (s : String) : String :=
  if s.toList.contains '\n' then
    (trimL (s.toList.takeWhile (fun c => c ≠ '\n'))).asString
  else s

def releaseDateStr (r : Release) : String :=
  stripNewlinePart (rawOrText r)

/-- The cutoff filter predicate from `fetchPressReleaseList`
(src/scraper.js): keep a record iff its prepared date text parses and the
parsed date is `>=` the cutoff date; unparsable dates are excluded
(`return false`). -/
def releaseFilterKeep (cutoff : YMD) (r : Release) : Bool :=
  match jsParseDate (releaseDateStr r) with
  | some d => encodeYMD cutoff ≤ encodeYMD d
  | none => false

def filterRecent (cutoff : YMD) (rs : List Release) : List Release :=
  rs.filter (releaseFilterKeep cutoff)

/-- Code-point lexicographic order on character lists, modelling JS string
comparison (`localeCompare` on the ASCII date texts at hand). -/
def lexLt : List Char → List Char → Bool
  | [], [] => false
  | [], _ :: _ => true
  | _ :: _, [] => false
  | a :: as, b :: bs => if a < b then true else if b < a then false else lexLt as bs

/-- The sort comparator from `fetchPressReleaseList` (src/scraper.js): when
both raw date texts parse, `dateB - dateA` (newest first, via the
order-preserving timestamp encoding); otherwise
`(b.rawDate || b.dateText).localeCompare(a.rawDate || a.dateText)`. -/
def sortCompare (a b : Release) : Int :=
  match jsParseDate (rawOrText a), jsParseDate (rawOrText b) with
  | some da, some db => (encodeYMD db : Int) - (encodeYMD da : Int)
  | _, _ =>
    if lexLt (rawOrText b).toList (rawOrText a).toList then -1
    else if lexLt (rawOrText a).toList (rawOrText b).toList then 1
    else 0

/-- `a` may precede `b` under the comparator (comparator value `<= 0`). -/
def jsSortLe (a b : Release) : Bool :=
  sortCompare a b ≤ 0

/-- Insert into a sorted list: `x` goes before the first element `y` with
`le x y`. -/
def insertOrd (le : α → α → Bool) (x : α) : List α → List α
  | [] => [x]
  | y :: ys => if le x y then x :: y :: ys else y :: insertOrd le x ys

/-- Stable comparison sort (model of `Array.prototype.sort`, which is
specified stable). -/
def insertionSort (le : α → α → Bool) : List α → List α
  | [] => []
  | x :: xs => insertOrd le x (insertionSort le xs)

/-- `recentReleases.sort(comparator)` from src/scraper.js. -/
def sortReleases (rs : List Release) : List Release :=
  insertionSort jsSortLe rs

/-- The first element (if any) matched by one title sub-selector inside a
row (src/scraper.js): its trimmed-able text, `href`, the `href` of a nested
anchor, its `data-node-nid`, and the `data-node-nid` of a nested anchor.
Absent attributes are the empty string (falsy under the source's `||`). -/
structure TitleHit where
  text : String
  href : String
  childHref : String
  nid : String
  childNid : String
deriving DecidableEq, Repr

/-- One row matched by a row-container selector (src/scraper.js):
whether it contains a `th` (header marker), the title sub-selector hits in
chain order, the date sub-selector hits in chain order, and the `href` of
the row's first anchor. -/
structure Row where
  hasHeaderCell : Bool
  titleHits : List TitleHit
  dateHits : List String
  firstAnchorHref : String
deriving DecidableEq, Repr

/-- The title sub-selector loop of `fetchPressReleaseList`
(src/scraper.js): the first hit with non-empty trimmed text wins, its link
falling back through `href`, nested-anchor `href`, and the row's first
anchor; a `data-node-nid` overrides the link with the modal URL.  Returns
`(title, link, nodeId)`, all empty when no hit matches. -/
def extractTitleInfo (row : Row) : String × String × String :=
  match row.titleHits.find? (fun h => decide (jsTrimStr h.text ≠ "")) with
  | none => ("", "", "")
  | some h =>
    let t := jsTrimStr h.text
    let link0 :=
      if h.href ≠ "" then h.href
      else if h.childHref ≠ "" then h.childHref
      else row.firstAnchorHref
    let nid := if h.nid ≠ "" then h.nid else h.childNid
    if nid ≠ "" then (t, "https://live.euronext.com/en/pd_press/" ++ nid, nid)
    else (t, link0, "")

/-- The date sub-selector loop (src/scraper.js): first hit with non-empty
trimmed text wins. -/
def extractDateText (row : Row) : String :=
  match row.dateHits.find? (fun s => decide (jsTrimStr s ≠ "")) with
  | none => ""
  | some s => jsTrimStr s

/-- Processing of one row by `fetchPressReleaseList` (src/scraper.js): skip
header rows; extract title and date; accept the row as a record only when
the title is non-empty and longer than 10 characters. -/
def rowRelease (baseUrl : String) (today : YMD) (row : Row) : Option Release :=
  if row.hasHeaderCell then none
  else
    let info := extractTitleInfo row
    let title := info.1
    let link := info.2.1
    let nid := info.2.2
    let dateText := extractDateText row
    if title ≠ "" ∧ title.length > 10 then
      some {
        title := title
        dateText := if dateText = "" then "Unknown date" else dateText
        url := if link ≠ "" then
            (if startsWithL link.toList "http".toList then link else baseUrl ++ link)
          else "#"
        nodeId := if nid = "" then none else some nid
        id := generateReleaseId title (if dateText = "" then "unknown" else dateText) today
        rawDate := dateText }
    else none

/-- All records a single row-container pattern produces (the inner `.each`
loop runs over every row of the pattern). -/
def patternOutput (baseUrl : String) (today : YMD) (rows : List Row) : List Release :=
  rows.filterMap (rowRelease baseUrl today)

/-- The row-container selector chain of `fetchPressReleaseList`
(src/scraper.js): patterns are tried in order and the loop breaks once
`foundReleases` is set, i.e. once a pattern has produced at least one
record; that pattern's records are the page's records. -/
def parseRows (baseUrl : String) (today : YMD) : List (List Row) → List Release
  | [] => []
  | pat :: rest =>
    let out := patternOutput baseUrl today pat
    if out.isEmpty then parseRows baseUrl today rest else out

/-- Result of the in-page modal `page.evaluate` extraction
(src/scraper.js): the call threw, returned `null`, or returned the wrapped
content string. -/
inductive ModalEval where
  | threw
  | nullContent
  | content (text : String)
deriving DecidableEq, Repr

/-- Outcomes of the external steps of `fetchPressReleaseContent`
(src/scraper.js): whether `puppeteer.launch` succeeds; whether the page
setup between launch and the inner `try` (`newPage`, `setUserAgent`,
`setViewport`, `page.goto`, the load wait) succeeds; whether the
link/modal `waitForSelector` + `click` interaction inside the inner `try`
succeeds; and the `page.evaluate` outcome. -/
structure PuppeteerEnv where
  launchOk : Bool
  pageSetupOk : Bool
  modalInteractionOk : Bool
  modalEval : ModalEval
deriving DecidableEq, Repr

/-- What `fetchPressReleaseContent` hands back, together with whether the
browser it launched was still open when the call returned. -/
structure FetchContentResult where
  content : String
  publishDate : String
  browserLeftOpen : Bool
deriving DecidableEq, Repr

/-- The synthesized fallback content of `fetchPressReleaseContent`
(src/scraper.js). -/
def fallbackContent (r : Release) : String :=
  "<h2>" ++ r.title ++ "</h2><p>Press release content from " ++ r.dateText ++
    ". <a href=\"" ++ r.url ++ "\">Read full article</a></p>"

/-- Control-flow model of `fetchPressReleaseContent` (src/scraper.js).
Branches, in source order: no `nodeId` — fallback without launching;
`puppeteer.launch` throws — the outer `catch` returns the fallback (no
browser exists); an exception between launch and the inner `try` — the
outer `catch` returns the fallback, and nothing closed the browser; a
selector failure inside the inner `try` — the inner `catch` logs, then
`browser.close()` runs before the fallback return; `page.evaluate` throws —
same inner path; `null` content — `browser.close()` then fallback; content —
`browser.close()` then the content is returned. -/
def fetchPressReleaseContent (env : PuppeteerEnv) (r : Release) : FetchContentResult :=
  match r.nodeId with
  | none => ⟨fallbackContent r, r.dateText, false⟩
  | some _ =>
    if !env.launchOk then ⟨fallbackContent r, r.dateText, false⟩
    else if !env.pageSetupOk then ⟨fallbackContent r, r.dateText, true⟩
    else if !env.modalInteractionOk then ⟨fallbackContent r, r.dateText, false⟩
    else
      match env.modalEval with
      | ModalEval.threw => ⟨fallbackContent r, r.dateText, false⟩
      | ModalEval.nullContent => ⟨fallbackContent r, r.dateText, false⟩
      | ModalEval.content c => ⟨c, r.dateText, false⟩

/-- A whitespace gap (one or more whitespace characters followed by `<`,
with the `>` already consumed) starts at the head of `cs`. -/
def gapAt (cs : List Char) : Bool :=
  cs.takeWhile isJsWs ≠ [] ∧ (cs.dropWhile isJsWs).head? = some '<'

/-- Does the list contain an inter-tag whitespace gap anywhere? -/
def hasGap : List Char → Bool
  | [] => false
  | c :: cs => (decide (c = '>') && gapAt cs) || hasGap cs

/-- Whitespace normal form after the run-collapse step: every whitespace
character is a single space and no two whitespace characters are
adjacent. -/
def wsNormal (l : List Char) : Prop :=
  (∀ c ∈ l, isJsWs c = true → c = ' ') ∧
    l.Chain' (fun a b => ¬(isJsWs a = true ∧ isJsWs b = true))

/-! ### Concrete sample data for witnesses and counterexamples -/

def relJan02 : Release :=
  ⟨"Protector Forsikring ASA interim results", "2025-01-02", "#", none, "", "2025-01-02"⟩

def relJan05 : Release :=
  ⟨"Protector Forsikring ASA annual report", "2025-01-05", "#", none, "", "2025-01-05"⟩

def relOnCutoff : Release :=
  ⟨"Protector Forsikring ASA share buyback", "27 Jun 2025", "#", none, "", "27 Jun 2025"⟩

def relBeforeCutoff : Release :=
  ⟨"Protector Forsikring ASA general meeting", "26 Jun 2025", "#", none, "", "26 Jun 2025"⟩

def relUnparsable : Release :=
  ⟨"Protector Forsikring ASA notice", "Unknown date", "#", none, "", "Unknown date"⟩

def sampleModalRelease : Release :=
  ⟨"Protector Forsikring ASA contemplated share issue", "27 Jun 2025",
    "https://live.euronext.com/en/pd_press/123456", some "123456", "", "27 Jun 2025"⟩

def prSampleA : PressRelease :=
  ⟨"Protector Forsikring ASA share buyback week 26", "2025-06-27", "<p>body a</p>",
    "https://live.euronext.com/en/pd_press/123456", "2025-06-27-protector"⟩

def prSampleB : PressRelease :=
  ⟨"Annual General Meeting 2025 minutes", "2025-05-01", "<p>body b</p>",
    "https://live.euronext.com/en/pd_press/123457", "2025-05-01-annual"⟩

def pubSample : List PressRelease := [prSampleA, prSampleB]

def headerRow : Row := ⟨true, [⟨"Date Company Title", "", "", "", ""⟩], ["Date"], ""⟩

def goodRow : Row :=
  ⟨false, [⟨"  Protector Forsikring ASA Q2 results  ", "/press/1", "", "", ""⟩],
    ["27 Jun 2025"], "/press/1"⟩

def otherRow : Row :=
  ⟨false, [⟨"Protector Forsikring ASA capital markets day", "/press/2", "", "", ""⟩],
    ["26 Jun 2025"], "/press/2"⟩

/-! ### Theorems -/

theorem length_asString (l : List Char) : (l.asString).length = l.length := rfl

theorem length_take_asString (n : Nat) (l : List Char) :
    ((l.take n).asString).length ≤ n := by
  rw [length_asString]
  exact List.length_take_le n l

/-- Claim C1 counterexample: `generateReleaseId` is not a function of the
`(title, date)` pair alone.  When the date fails to parse the key embeds the
current date, so the same inputs yield different keys on different days. -/
theorem generateReleaseId_not_time_independent :
    generateReleaseId "Quarterly Report" "unknown" ⟨2025, 1, 1⟩ ≠
      generateReleaseId "Quarterly Report" "unknown" ⟨2025, 1, 2⟩ := by
  decide

/-- Claim C1 (amended): for every input whose date text parses,
`generateReleaseId` is deterministic — the key does not depend on the call
time — and every key is truncated to at most 100 characters.  (For an
unparsable date the key falls back to the current date at call time, so it
can differ across days.) -/
theorem generateReleaseId_deterministic_on_parsable (title date : String)
    (d1 d2 : YMD) (h : (jsParseDate date).isSome = true) :
    generateReleaseId title date d1 = generateReleaseId title date d2 ∧
      (generateReleaseId title date d1).length ≤ 100 := by
  obtain ⟨x, hx⟩ := Option.isSome_iff_exists.mp h
  constructor
  · simp only [generateReleaseId, hx]
  · exact length_take_asString 100 _

/-- Witness for the amended C1 theorem at a concrete parsable date. -/
theorem generateReleaseId_deterministic_on_parsable_witness :
    generateReleaseId "Protector Forsikring ASA" "2025-06-27" ⟨2025, 1, 1⟩ =
        generateReleaseId "Protector Forsikring ASA" "2025-06-27" ⟨2026, 2, 2⟩ ∧
      (generateReleaseId "Protector Forsikring ASA" "2025-06-27" ⟨2025, 1, 1⟩).length ≤ 100 :=
  generateReleaseId_deterministic_on_parsable
    "Protector Forsikring ASA" "2025-06-27" ⟨2025, 1, 1⟩ ⟨2026, 2, 2⟩ (by decide)

/-- Claim C7 counterexample: the fatal-path append in `run()`'s catch block
does not truncate, so a store already holding 10 errors ends the run with
11 — the "last 10" bound fails on that path. -/
theorem fatal_append_exceeds_ten :
    ¬ ((fatalAppendErrors
          (List.replicate 10 (ErrEntry.runErr "t" "m" "ts"))
          (ErrEntry.fatalErr "boom" "ts")).length ≤ 10) := by
  decide

/-- Claim C7 (amended): a successful run truncates `stats.errors` to at most
the last 10 entries, but the fatal-failure path appends its entry without
truncating, growing the persisted list by exactly one — so after a fatal run
the list can exceed 10. -/
theorem stats_errors_bounds :
    (∀ old newErrs : List ErrEntry, (updateRunErrors old newErrs).length ≤ 10) ∧
      (∀ (old : List ErrEntry) (e : ErrEntry),
        (fatalAppendErrors old e).length = old.length + 1) := by
  constructor
  · intro old newErrs
    simp only [updateRunErrors, jsSliceLast, List.length_drop]
    omega
  · intro old e
    simp [fatalAppendErrors]

/-- Claim C10: each run processes at most `limit` records —
`getLatestReleases` only ever looks at the first `limit` records of the
sorted list and returns at most `limit` results — and the orchestrator's
limit is 3 in test mode and 10 otherwise. -/
theorem run_processes_at_most_limit :
    (∀ (fetchOracle : Release → Option ScrapedRelease) (limit : Nat)
        (rs : List Release),
        (getLatestReleases fetchOracle limit rs).length ≤ limit ∧
          getLatestReleases fetchOracle limit rs =
            getLatestReleases fetchOracle limit (rs.take limit)) ∧
      runLimit true = 3 ∧ runLimit false = 10 := by
  refine ⟨fun fetchOracle limit rs => ⟨?_, ?_⟩, rfl, rfl⟩
  · calc ((rs.take limit).filterMap fetchOracle).length
        ≤ (rs.take limit).length := List.length_filterMap_le _ _
      _ ≤ limit := List.length_take_le _ _
  · simp [getLatestReleases, List.take_take]

theorem itemExists_true_of_mem {st : List String} {r : PressRelease}
    (h : slugOf r ∈ st) : itemExists st r = true := by
  simp only [itemExists, List.find?_isSome, beq_iff_eq]
  exact ⟨slugOf r, h, rfl⟩

theorem itemExists_false_of_not_mem {st : List String} {r : PressRelease}
    (h : slugOf r ∉ st) : itemExists st r = false := by
  rw [Bool.eq_false_iff]
  intro htrue
  simp only [itemExists, List.find?_isSome, beq_iff_eq] at htrue
  obtain ⟨x, hx, rfl⟩ := htrue
  exact h hx

theorem createItems_all_exist (rs : List PressRelease) (st : List String)
    (h : ∀ r ∈ rs, slugOf r ∈ st) :
    createItems okOracle rs st = (⟨[], rs, []⟩, st) := by
  induction rs with
  | nil => simp [createItems]
  | cons r rest ih =>
    have hex : itemExists st r = true :=
      itemExists_true_of_mem (h r (List.mem_cons_self r rest))
    simp [createItems, hex, ih (fun x hx => h x (List.mem_cons_of_mem _ hx))]

theorem createItems_all_new (rs : List PressRelease) (st : List String)
    (hnd : (rs.map slugOf).Nodup) (hdisj : ∀ r ∈ rs, slugOf r ∉ st) :
    createItems okOracle rs st =
      (⟨rs.map (fun r => (r, slugOf r)), [], []⟩, st ++ rs.map slugOf) := by
  induction rs generalizing st with
  | nil => simp [createItems]
  | cons r rest ih =>
    have hex : itemExists st r = false :=
      itemExists_false_of_not_mem (hdisj r (List.mem_cons_self r rest))
    have hnd2 : slugOf r ∉ rest.map slugOf ∧ (rest.map slugOf).Nodup := by
      rw [List.map_cons, List.nodup_cons] at hnd
      exact hnd
    have hdisj' : ∀ x ∈ rest, slugOf x ∉ st ++ [slugOf r] := by
      intro x hx
      simp only [List.mem_append, List.mem_singleton]
      rintro (hin | heq)
      · exact hdisj x (List.mem_cons_of_mem _ hx) hin
      · exact hnd2.1 (heq ▸ List.mem_map_of_mem slugOf hx)
    have ihe := ih (st ++ [slugOf r]) hnd2.2 hdisj'
    simp [createItems, hex, okOracle, ihe, List.append_assoc]

/-- Claim C2: publisher idempotency.  For records with pairwise-distinct
derived slugs, none present remotely: the first `createItems` run creates
every record (`created.length = N`, nothing skipped or errored); a second
run against the resulting remote state skips every record
(`skipped.length = N`, nothing created or errored) and leaves the remote
state unchanged — no second remote item is created, because `itemExists`
checks exactly the slug `createItem` wrote. -/
theorem createItems_idempotent (rs : List PressRelease) (st : List String)
    (hnd : (rs.map slugOf).Nodup) (hdisj : ∀ r ∈ rs, slugOf r ∉ st) :
    ((createItems okOracle rs st).1.created.length = rs.length) ∧
    ((createItems okOracle rs st).1.skipped = []) ∧
    ((createItems okOracle rs st).1.errors = []) ∧
    ((createItems okOracle rs (createItems okOracle rs st).2).1.skipped.length = rs.length) ∧
    ((createItems okOracle rs (createItems okOracle rs st).2).1.created = []) ∧
    ((createItems okOracle rs (createItems okOracle rs st).2).2 =
      (createItems okOracle rs st).2) := by
  have h1 := createItems_all_new rs st hnd hdisj
  have hmem : ∀ r ∈ rs, slugOf r ∈ (createItems okOracle rs st).2 := by
    rw [h1]
    intro r hr
    exact List.mem_append_right _ (List.mem_map_of_mem slugOf hr)
  have h2 := createItems_all_exist rs _ hmem
  rw [h1] at h2
  refine ⟨?_, ?_, ?_, ?_, ?_, ?_⟩ <;> simp [h1, h2]

/-- Witness for C2 at a concrete two-record batch against an empty remote
collection. -/
theorem createItems_idempotent_witness :
    ((createItems okOracle pubSample []).1.created.length = pubSample.length) ∧
    ((createItems okOracle pubSample []).1.skipped = []) ∧
    ((createItems okOracle pubSample []).1.errors = []) ∧
    ((createItems okOracle pubSample (createItems okOracle pubSample []).2).1.skipped.length =
      pubSample.length) ∧
    ((createItems okOracle pubSample (createItems okOracle pubSample []).2).1.created = []) ∧
    ((createItems okOracle pubSample (createItems okOracle pubSample []).2).2 =
      (createItems okOracle pubSample []).2) :=
  createItems_idempotent pubSample [] (by decide) (by decide)

/-- Claim C9: `createItems` partitions its input — the three buckets'
sizes sum to the input size, and the multiset of records across
`created`, `skipped` and `errors` is exactly the input: an existence hit
goes to `skipped`, a successful creation to `created`, an exception to
`errors`, and no record is dropped or counted twice. -/
theorem createItems_partitions (createOracle : PressRelease → CreateOutcome)
    (rs : List PressRelease) (st : List String) :
    ((createItems createOracle rs st).1.created.length +
      (createItems createOracle rs st).1.skipped.length +
      (createItems createOracle rs st).1.errors.length = rs.length) ∧
    ((createItems createOracle rs st).1.created.map Prod.fst ++
      (createItems createOracle rs st).1.skipped ++
      (createItems createOracle rs st).1.errors.map Prod.fst).Perm rs := by
  induction rs generalizing st with
  | nil => simp [createItems]
  | cons r rest ih =>
    cases hex : itemExists st r with
    | true =>
      obtain ⟨ihlen, ihperm⟩ := ih st
      rcases hres : createItems createOracle rest st with ⟨⟨A, S, E⟩, st'⟩
      rw [hres] at ihlen ihperm
      simp only at ihlen ihperm
      have hun : createItems createOracle (r :: rest) st = (⟨A, r :: S, E⟩, st') := by
        simp [createItems, hex, hres]
      rw [hun]
      simp only [List.length_cons]
      refine ⟨by omega, ?_⟩
      have e1 : A.map Prod.fst ++ (r :: S) ++ E.map Prod.fst =
          A.map Prod.fst ++ r :: (S ++ E.map Prod.fst) := by
        simp
      rw [e1]
      refine List.perm_middle.trans (List.Perm.cons r ?_)
      simpa [List.append_assoc] using ihperm
    | false =>
      cases hor : createOracle r with
      | ok =>
        obtain ⟨ihlen, ihperm⟩ := ih (st ++ [slugOf r])
        rcases hres : createItems createOracle rest (st ++ [slugOf r]) with ⟨⟨A, S, E⟩, st'⟩
        rw [hres] at ihlen ihperm
        simp only at ihlen ihperm
        have hun : createItems createOracle (r :: rest) st =
            (⟨(r, slugOf r) :: A, S, E⟩, st') := by
          simp [createItems, hex, hor, hres]
        rw [hun]
        simp only [List.length_cons, List.map_cons]
        refine ⟨by omega, ?_⟩
        exact (ihperm.cons r).symm.symm
      | err m =>
        obtain ⟨ihlen, ihperm⟩ := ih st
        rcases hres : createItems createOracle rest st with ⟨⟨A, S, E⟩, st'⟩
        rw [hres] at ihlen ihperm
        simp only at ihlen ihperm
        have hun : createItems createOracle (r :: rest) st =
            (⟨A, S, (r, m) :: E⟩, st') := by
          simp [createItems, hex, hor, hres]
        rw [hun]
        simp only [List.length_cons, List.map_cons]
        refine ⟨by omega, ?_⟩
        have e1 : A.map Prod.fst ++ S ++ (r :: E.map Prod.fst) =
            (A.map Prod.fst ++ S) ++ r :: E.map Prod.fst := by
          simp
        rw [e1]
        refine List.perm_middle.trans (List.Perm.cons r ?_)
        simpa [List.append_assoc] using ihperm

/-- Claim C4: under the absolute-cutoff policy, a record whose prepared
date text parses to a date `>=` the cutoff is kept (in particular one dated
exactly on the cutoff), one parsing to a date before the cutoff is
excluded, and one whose date text cannot be parsed is dropped. -/
theorem cutoff_filter_correct (cutoff : YMD) (rs : List Release) (r : Release)
    (hmem : r ∈ rs) :
    (∀ d, jsParseDate (releaseDateStr r) = some d →
      ((encodeYMD cutoff ≤ encodeYMD d → r ∈ filterRecent cutoff rs) ∧
        (encodeYMD d < encodeYMD cutoff → r ∉ filterRecent cutoff rs))) ∧
    (jsParseDate (releaseDateStr r) = none → r ∉ filterRecent cutoff rs) := by
  refine ⟨fun d hd => ⟨fun hle => ?_, fun hlt => ?_⟩, fun hn => ?_⟩
  · rw [filterRecent, List.mem_filter]
    refine ⟨hmem, ?_⟩
    simp [releaseFilterKeep, hd, hle]
  · rw [filterRecent, List.mem_filter]
    rintro ⟨-, hk⟩
    simp only [releaseFilterKeep, hd, decide_eq_true_eq] at hk
    omega
  · rw [filterRecent, List.mem_filter]
    rintro ⟨-, hk⟩
    simp [releaseFilterKeep, hn] at hk

/-- Witness for C4: with cutoff 2025-06-27, a record dated exactly on the
cutoff is kept, one dated the day before is excluded, and an unparsable one
is dropped. -/
theorem cutoff_filter_correct_witness :
    relOnCutoff ∈ filterRecent ⟨2025, 6, 27⟩ [relOnCutoff, relBeforeCutoff, relUnparsable] ∧
    relBeforeCutoff ∉ filterRecent ⟨2025, 6, 27⟩ [relOnCutoff, relBeforeCutoff, relUnparsable] ∧
    relUnparsable ∉ filterRecent ⟨2025, 6, 27⟩ [relOnCutoff, relBeforeCutoff, relUnparsable] :=
  ⟨((cutoff_filter_correct ⟨2025, 6, 27⟩ _ relOnCutoff (by decide)).1
      ⟨2025, 6, 27⟩ (by decide)).1 (by decide),
    ((cutoff_filter_correct ⟨2025, 6, 27⟩ _ relBeforeCutoff (by decide)).1
      ⟨2025, 6, 26⟩ (by decide)).2 (by decide),
    (cutoff_filter_correct ⟨2025, 6, 27⟩ _ relUnparsable (by decide)).2 (by decide)⟩

theorem parseRows_skips_failed (baseUrl : String) (today : YMD)
    (pre : List (List Row)) (rows : List Row) (post : List (List Row))
    (hpre : ∀ l ∈ pre, patternOutput baseUrl today l = [])
    (hrows : patternOutput baseUrl today rows ≠ []) :
    parseRows baseUrl today (pre ++ rows :: post) = patternOutput baseUrl today rows := by
  induction pre with
  | nil =>
    simp only [List.nil_append, parseRows]
    rw [if_neg]
    simp [List.isEmpty_iff, hrows]
  | cons l pre ih =>
    have hl : patternOutput baseUrl today l = [] := hpre l (List.mem_cons_self l pre)
    simp only [List.cons_append, parseRows, hl]
    simpa using ih (fun x hx => hpre x (List.mem_cons_of_mem _ hx))

/-- Claim C6: the row-selector chain is first-success-wins — once a pattern
yields at least one accepted row (title present and over the length bound),
every record of the page comes from that single pattern, and the patterns
after it are never consulted: replacing them changes nothing. -/
theorem selector_chain_first_success (baseUrl : String) (today : YMD)
    (pre : List (List Row)) (rows : List Row) (post post' : List (List Row))
    (hpre : ∀ l ∈ pre, patternOutput baseUrl today l = [])
    (hrows : patternOutput baseUrl today rows ≠ []) :
    parseRows baseUrl today (pre ++ rows :: post) = patternOutput baseUrl today rows ∧
    parseRows baseUrl today (pre ++ rows :: post) =
      parseRows baseUrl today (pre ++ rows :: post') := by
  have k1 := parseRows_skips_failed baseUrl today pre rows post hpre hrows
  have k2 := parseRows_skips_failed baseUrl today pre rows post' hpre hrows
  exact ⟨k1, k1.trans k2.symm⟩

/-- Witness for C6: a header-only pattern is passed over, the first pattern
with an accepted row supplies the page's records, and dropping the trailing
pattern leaves the result unchanged. -/
theorem selector_chain_first_success_witness :
    parseRows "https://live.euronext.com" ⟨2025, 7, 1⟩ [[headerRow], [goodRow], [otherRow]] =
      patternOutput "https://live.euronext.com" ⟨2025, 7, 1⟩ [goodRow] ∧
    parseRows "https://live.euronext.com" ⟨2025, 7, 1⟩ [[headerRow], [goodRow], [otherRow]] =
      parseRows "https://live.euronext.com" ⟨2025, 7, 1⟩ [[headerRow], [goodRow]] :=
  selector_chain_first_success "https://live.euronext.com" ⟨2025, 7, 1⟩
    [[headerRow]] [goodRow] [[otherRow]] [] (by decide) (by decide)

/-- Claim C3 (code bug): in src/scraper.js's `fetchPressReleaseContent`, an
exception thrown after `puppeteer.launch` but before the inner `try` — for
example a `page.goto` timeout — reaches the outer `catch`, which returns the
fallback without `browser.close()` (there is no `finally`), so the launched
browser is still open when the call returns. -/
theorem fetchContent_leaves_browser_open :
    (fetchPressReleaseContent ⟨true, false, true, ModalEval.nullContent⟩
        sampleModalRelease).browserLeftOpen = true ∧
    (fetchPressReleaseContent ⟨true, false, true, ModalEval.nullContent⟩
        sampleModalRelease).content = fallbackContent sampleModalRelease := by
  exact ⟨rfl, rfl⟩

theorem lexLt_asymm : ∀ {x y : List Char}, lexLt x y = true → lexLt y x = false
  | [], [], h => by simp [lexLt] at h
  | [], _ :: _, _ => by simp [lexLt]
  | _ :: _, [], h => by simp [lexLt] at h
  | a :: as, b :: bs, h => by
    simp only [lexLt] at h ⊢
    by_cases hab : a < b
    · rw [if_neg (lt_asymm hab), if_pos hab]
    · rw [if_neg hab] at h
      by_cases hba : b < a
      · rw [if_pos hba] at h
        exact absurd h (by simp)
      · rw [if_neg hba] at h
        rw [if_neg hba, if_neg hab]
        exact lexLt_asymm h

theorem mem_insertOrd {le : α → α → Bool} {x a : α} {l : List α} :
    a ∈ insertOrd le x l ↔ a = x ∨ a ∈ l := by
  induction l with
  | nil => simp [insertOrd]
  | cons y ys ih =>
    simp only [insertOrd]
    split
    · simp [List.mem_cons]
    · simp only [List.mem_cons, ih]
      tauto

theorem pairwise_insertOrd (le : α → α → Bool) (P : α → Prop)
    (total : ∀ a b, P a → P b → le a b = true ∨ le b a = true)
    (htrans : ∀ a b c, P a → P b → P c →
      le a b = true → le b c = true → le a c = true)
    (x : α) (l : List α) (hPx : P x) (hPl : ∀ y ∈ l, P y)
    (hl : l.Pairwise (fun a b => le a b = true)) :
    (insertOrd le x l).Pairwise (fun a b => le a b = true) := by
  induction l with
  | nil => simp [insertOrd]
  | cons y ys ih =>
    obtain ⟨hy, hys⟩ := List.pairwise_cons.mp hl
    simp only [insertOrd]
    split
    next hxy =>
      refine List.pairwise_cons.mpr ⟨?_, hl⟩
      intro z hz
      rcases List.mem_cons.mp hz with rfl | hz'
      · exact hxy
      · exact htrans x y z hPx (hPl y (List.mem_cons_self y ys))
          (hPl z (List.mem_cons_of_mem _ hz')) hxy (hy z hz')
    next hxy =>
      have hyx : le y x = true := by
        rcases total x y hPx (hPl y (List.mem_cons_self y ys)) with h1 | h1
        · exact absurd h1 hxy
        · exact h1
      refine List.pairwise_cons.mpr
        ⟨?_, ih (fun z hz => hPl z (List.mem_cons_of_mem _ hz)) hys⟩
      intro z hz
      rcases mem_insertOrd.mp hz with rfl | hz'
      · exact hyx
      · exact hy z hz'

theorem mem_insertionSort {le : α → α → Bool} {l : List α} {a : α} :
    a ∈ insertionSort le l ↔ a ∈ l := by
  induction l with
  | nil => simp [insertionSort]
  | cons x xs ih => simp [insertionSort, mem_insertOrd, ih]

theorem pairwise_insertionSort (le : α → α → Bool) (P : α → Prop)
    (total : ∀ a b, P a → P b → le a b = true ∨ le b a = true)
    (htrans : ∀ a b c, P a → P b → P c →
      le a b = true → le b c = true → le a c = true)
    (l : List α) (hPl : ∀ y ∈ l, P y) :
    (insertionSort le l).Pairwise (fun a b => le a b = true) := by
  induction l with
  | nil => simp [insertionSort]
  | cons x xs ih =>
    simp only [insertionSort]
    exact pairwise_insertOrd le P total htrans x _
      (hPl x (List.mem_cons_self x xs))
      (fun y hy => hPl y (List.mem_cons_of_mem _ (mem_insertionSort.mp hy)))
      (ih (fun y hy => hPl y (List.mem_cons_of_mem _ hy)))

theorem jsSortLe_of_parse {a b : Release} {da db : YMD}
    (ha : jsParseDate (rawOrText a) = some da)
    (hb : jsParseDate (rawOrText b) = some db) :
    (jsSortLe a b = true ↔ encodeYMD db ≤ encodeYMD da) := by
  simp only [jsSortLe, sortCompare, ha, hb, decide_eq_true_eq]
  omega

/-- Claim C5: the sorter's behaviour.  (1) When both raw date texts parse,
the comparator lets `a` precede `b` exactly when `a`'s date is the later or
equal one — so the later date precedes; (2) when either side fails to
parse, the comparator is exactly descending lexical comparison of the raw
date texts; (3) on a list whose records all parse, the sorted output is
pairwise descending by date; (4) the records dated 2025-01-02 and
2025-01-05 come out as [2025-01-05, 2025-01-02]. -/
theorem sorter_correct :
    (∀ a b da db, jsParseDate (rawOrText a) = some da →
        jsParseDate (rawOrText b) = some db →
        (jsSortLe a b = true ↔ encodeYMD db ≤ encodeYMD da)) ∧
    (∀ a b, (jsParseDate (rawOrText a) = none ∨ jsParseDate (rawOrText b) = none) →
        (jsSortLe a b = true ↔
          lexLt (rawOrText a).toList (rawOrText b).toList = false)) ∧
    (∀ rs : List Release, (∀ r ∈ rs, (jsParseDate (rawOrText r)).isSome = true) →
        (sortReleases rs).Pairwise (fun a b => ∀ da db,
          jsParseDate (rawOrText a) = some da →
          jsParseDate (rawOrText b) = some db →
          encodeYMD db ≤ encodeYMD da)) ∧
    sortReleases [relJan02, relJan05] = [relJan05, relJan02] := by
  have fallbackIf : ∀ a b : Release,
      ((if lexLt (rawOrText b).toList (rawOrText a).toList then (-1 : Int)
        else if lexLt (rawOrText a).toList (rawOrText b).toList then 1 else 0) ≤ 0 ↔
        lexLt (rawOrText a).toList (rawOrText b).toList = false) := by
    intro a b
    by_cases hba : lexLt (rawOrText b).toList (rawOrText a).toList = true
    · rw [if_pos hba]
      exact ⟨fun _ => lexLt_asymm hba, fun _ => by norm_num⟩
    · rw [if_neg hba]
      by_cases hab : lexLt (rawOrText a).toList (rawOrText b).toList = true
      · rw [if_pos hab]
        refine ⟨fun hle => absurd hle (by norm_num), fun hf => ?_⟩
        rw [hab] at hf
        exact absurd hf (by simp)
      · rw [if_neg hab]
        exact ⟨fun _ => Bool.eq_false_iff.mpr hab, fun _ => by norm_num⟩
  have fallback : ∀ a b : Release,
      (jsParseDate (rawOrText a) = none ∨ jsParseDate (rawOrText b) = none) →
      (jsSortLe a b = true ↔
        lexLt (rawOrText a).toList (rawOrText b).toList = false) := by
    intro a b h
    rcases hx : jsParseDate (rawOrText a) with _ | da <;>
      rcases hy : jsParseDate (rawOrText b) with _ | db
    · simp only [jsSortLe, sortCompare, hx, hy, decide_eq_true_eq]
      exact fallbackIf a b
    · simp only [jsSortLe, sortCompare, hx, hy, decide_eq_true_eq]
      exact fallbackIf a b
    · simp only [jsSortLe, sortCompare, hx, hy, decide_eq_true_eq]
      exact fallbackIf a b
    · rcases h with h | h
      · rw [hx] at h
        exact absurd h (by simp)
      · rw [hy] at h
        exact absurd h (by simp)
  refine ⟨fun a b da db ha hb => jsSortLe_of_parse ha hb, fallback, ?_, by decide⟩
  intro rs hall
  have hpw := pairwise_insertionSort jsSortLe
    (fun r => (jsParseDate (rawOrText r)).isSome = true)
    (fun a b hPa hPb => by
      obtain ⟨da, hda⟩ := Option.isSome_iff_exists.mp hPa
      obtain ⟨db, hdb⟩ := Option.isSome_iff_exists.mp hPb
      rcases Nat.le_total (encodeYMD db) (encodeYMD da) with h | h
      · exact Or.inl ((jsSortLe_of_parse hda hdb).mpr h)
      · exact Or.inr ((jsSortLe_of_parse hdb hda).mpr h))
    (fun a b c hPa hPb hPc hab hbc => by
      obtain ⟨da, hda⟩ := Option.isSome_iff_exists.mp hPa
      obtain ⟨db, hdb⟩ := Option.isSome_iff_exists.mp hPb
      obtain ⟨dc, hdc⟩ := Option.isSome_iff_exists.mp hPc
      have h1 := (jsSortLe_of_parse hda hdb).mp hab
      have h2 := (jsSortLe_of_parse hdb hdc).mp hbc
      exact (jsSortLe_of_parse hda hdc).mpr (le_trans h2 h1))
    rs hall
  refine hpw.imp_of_mem ?_
  intro a b ha hb hle da db hda hdb
  exact (jsSortLe_of_parse hda hdb).mp hle

/-- Witness for C5: the comparator puts the later-dated record first for a
parsable pair, falls back to descending lexical order when one side is
unparsable, yields a pairwise-descending output on an all-parsable list,
and sorts the concrete two-record example newest-first. -/
theorem sorter_correct_witness :
    jsSortLe relJan05 relJan02 = true ∧
    jsSortLe relUnparsable relJan02 = true ∧
    (sortReleases [relJan02, relJan05]).Pairwise (fun a b => ∀ da db,
      jsParseDate (rawOrText a) = some da →
      jsParseDate (rawOrText b) = some db →
      encodeYMD db ≤ encodeYMD da) ∧
    sortReleases [relJan02, relJan05] = [relJan05, relJan02] :=
  ⟨(sorter_correct.1 relJan05 relJan02 ⟨2025, 1, 5⟩ ⟨2025, 1, 2⟩
      (by decide) (by decide)).mpr (by decide),
    (sorter_correct.2.1 relUnparsable relJan02 (Or.inl (by decide))).mpr (by decide),
    sorter_correct.2.2.1 [relJan02, relJan05] (by decide),
    sorter_correct.2.2.2⟩

theorem collapseWsGo_cons_ws_true {d : Char} {ds : List Char} (hd : isJsWs d = true) :
    collapseWsGo true (d :: ds) = collapseWsGo true ds := by
  simp [collapseWsGo, hd]

theorem collapseWsGo_cons_ws_false {d : Char} {ds : List Char} (hd : isJsWs d = true) :
    collapseWsGo false (d :: ds) = ' ' :: collapseWsGo true ds := by
  simp [collapseWsGo, hd]

theorem collapseWsGo_cons_not_ws (b : Bool) {d : Char} {ds : List Char}
    (hd : isJsWs d = false) :
    collapseWsGo b (d :: ds) = d :: collapseWsGo false ds := by
  simp [collapseWsGo, hd]

theorem collapseWsGo_head_true :
    ∀ (l : List Char) (c : Char), (collapseWsGo true l).head? = some c → isJsWs c = false
  | [], c, h => by simp [collapseWsGo] at h
  | d :: ds, c, h => by
    cases hd : isJsWs d with
    | true =>
      rw [collapseWsGo_cons_ws_true hd] at h
      exact collapseWsGo_head_true ds c h
    | false =>
      rw [collapseWsGo_cons_not_ws true hd] at h
      have : d = c := by simpa using h
      rw [← this]
      exact hd

theorem collapseWsGo_ws_char :
    ∀ (b : Bool) (l : List Char), ∀ c ∈ collapseWsGo b l, isJsWs c = true → c = ' ' := by
  intro b l
  induction l generalizing b with
  | nil => simp [collapseWsGo]
  | cons d ds ih =>
    intro c hc hwc
    cases hd : isJsWs d with
    | true =>
      cases b with
      | true =>
        rw [collapseWsGo_cons_ws_true hd] at hc
        exact ih true c hc hwc
      | false =>
        rw [collapseWsGo_cons_ws_false hd] at hc
        rcases List.mem_cons.mp hc with rfl | hc'
        · rfl
        · exact ih true c hc' hwc
    | false =>
      rw [collapseWsGo_cons_not_ws b hd] at hc
      rcases List.mem_cons.mp hc with rfl | hc'
      · exact absurd hwc (by simp [hd])
      · exact ih false c hc' hwc

theorem chain'_collapseWsGo (b : Bool) (l : List Char) :
    (collapseWsGo b l).Chain' (fun a c => ¬(isJsWs a = true ∧ isJsWs c = true)) := by
  induction l generalizing b with
  | nil => simp [collapseWsGo]
  | cons d ds ih =>
    cases hd : isJsWs d with
    | true =>
      cases b with
      | true =>
        rw [collapseWsGo_cons_ws_true hd]
        exact ih true
      | false =>
        rw [collapseWsGo_cons_ws_false hd]
        rw [List.chain'_cons']
        refine ⟨?_, ih true⟩
        intro y hy hcon
        have := collapseWsGo_head_true ds y hy
        simp [this] at hcon
    | false =>
      rw [collapseWsGo_cons_not_ws b hd]
      rw [List.chain'_cons']
      refine ⟨?_, ih false⟩
      intro y hy hcon
      simp [hd] at hcon

theorem wsNormal_collapseWsL (l : List Char) : wsNormal (collapseWsL l) :=
  ⟨collapseWsGo_ws_char false l, chain'_collapseWsGo false l⟩

theorem wsNormal_tail {l : List Char} (h : wsNormal l) : wsNormal l.tail :=
  ⟨fun c hc hwc => h.1 c ((List.tail_sublist l).subset hc) hwc, h.2.tail⟩

theorem collapseWsGo_true_eq_false_of_head {ds : List Char}
    (hhead : ∀ c, ds.head? = some c → isJsWs c = false) :
    collapseWsGo true ds = collapseWsGo false ds := by
  cases ds with
  | nil => rfl
  | cons e es =>
    have he : isJsWs e = false := hhead e rfl
    rw [collapseWsGo_cons_not_ws true he, collapseWsGo_cons_not_ws false he]

theorem collapseWsGo_eq_self : ∀ {l : List Char}, wsNormal l → collapseWsGo false l = l
  | [], _ => rfl
  | d :: ds, h => by
    cases hd : isJsWs d with
    | true =>
      have hds : ∀ c, ds.head? = some c → isJsWs c = false := by
        intro c hc
        cases ds with
        | nil => simp at hc
        | cons e es =>
          have he : d = ' ' ∧ ¬(isJsWs d = true ∧ isJsWs e = true) :=
            ⟨h.1 d (List.mem_cons_self d _) hd, (List.chain'_cons.mp h.2).1⟩
          have : isJsWs e = false := by
            rcases he with ⟨-, hne⟩
            cases hE : isJsWs e with
            | false => rfl
            | true => exact absurd ⟨hd, hE⟩ hne
          have hc' : e = c := by simpa using hc
          rw [← hc']
          exact this
      have hsp : d = ' ' := h.1 d (List.mem_cons_self d _) hd
      have ihds : collapseWsGo false ds = ds :=
        collapseWsGo_eq_self (show wsNormal ds from wsNormal_tail h)
      rw [collapseWsGo_cons_ws_false hd, collapseWsGo_true_eq_false_of_head hds,
        ihds, hsp]
    | false =>
      have ihds : collapseWsGo false ds = ds :=
        collapseWsGo_eq_self (show wsNormal ds from wsNormal_tail h)
      rw [collapseWsGo_cons_not_ws false hd, ihds]

theorem gapRemoveL_cons_gap {cs : List Char} (h1 : cs.takeWhile isJsWs ≠ [])
    (h2 : (cs.dropWhile isJsWs).head? = some '<') :
    gapRemoveL ('>' :: cs) = '>' :: '<' :: gapRemoveL (cs.dropWhile isJsWs).tail := by
  rw [gapRemoveL]
  rw [if_pos ⟨rfl, h1, h2⟩]

theorem gapRemoveL_cons_no {c : Char} {cs : List Char}
    (h : ¬(c = '>' ∧ cs.takeWhile isJsWs ≠ [] ∧ (cs.dropWhile isJsWs).head? = some '<')) :
    gapRemoveL (c :: cs) = c :: gapRemoveL cs := by
  rw [gapRemoveL]
  rw [if_neg h]

theorem gapRemoveL_head (l : List Char) : (gapRemoveL l).head? = l.head? := by
  cases l with
  | nil => simp [gapRemoveL]
  | cons c cs =>
    by_cases h : c = '>' ∧ cs.takeWhile isJsWs ≠ [] ∧ (cs.dropWhile isJsWs).head? = some '<'
    · obtain ⟨rfl, h1, h2⟩ := h
      rw [gapRemoveL_cons_gap h1 h2]
      rfl
    · rw [gapRemoveL_cons_no h]
      rfl

theorem gapRemoveL_ws_append :
    ∀ (run rest : List Char), (∀ c ∈ run, isJsWs c = true) →
      gapRemoveL (run ++ rest) = run ++ gapRemoveL rest
  | [], _, _ => by simp
  | w :: run, rest, h => by
    have hw : isJsWs w = true := h w (List.mem_cons_self _ _)
    have hwne : ¬(w = '>' ∧ (run ++ rest).takeWhile isJsWs ≠ [] ∧
        ((run ++ rest).dropWhile isJsWs).head? = some '<') := by
      rintro ⟨rfl, -, -⟩
      exact absurd hw (by decide)
    rw [List.cons_append, gapRemoveL_cons_no hwne,
      gapRemoveL_ws_append run rest (fun c hc => h c (List.mem_cons_of_mem _ hc))]
    rfl

theorem gapAt_false_of_head {X : List Char}
    (h : ∀ d, X.head? = some d → isJsWs d = false) : gapAt X = false := by
  cases X with
  | nil => simp [gapAt]
  | cons d ds =>
    have hd : isJsWs d = false := h d rfl
    simp [gapAt, List.takeWhile_cons, hd]

theorem head_dropWhile_not (p : α → Bool) :
    ∀ (l : List α) (x : α), (l.dropWhile p).head? = some x → p x = false
  | [], x, h => by simp at h
  | c :: cs, x, h => by
    rw [List.dropWhile_cons] at h
    split at h
    · exact head_dropWhile_not p cs x h
    · next hc =>
      have : c = x := by simpa using h
      rw [← this]
      exact Bool.eq_false_iff.mpr hc

theorem dropWhile_eq_self_of_head (p : α → Bool) {l : List α}
    (h : ∀ x, l.head? = some x → p x = false) : l.dropWhile p = l := by
  cases l with
  | nil => rfl
  | cons c cs =>
    rw [List.dropWhile_cons]
    simp [h c rfl]

theorem dropWhile_append_all (p : α → Bool) :
    ∀ (run M : List α), (∀ c ∈ run, p c = true) →
      (run ++ M).dropWhile p = M.dropWhile p
  | [], _, _ => rfl
  | c :: run, M, h => by
    rw [List.cons_append, List.dropWhile_cons, if_pos (h c (List.mem_cons_self _ _))]
    exact dropWhile_append_all p run M (fun x hx => h x (List.mem_cons_of_mem _ hx))

theorem mem_takeWhile_true (p : α → Bool) :
    ∀ (l : List α), ∀ x ∈ l.takeWhile p, p x = true
  | [], x, hx => by simp at hx
  | c :: cs, x, hx => by
    rw [List.takeWhile_cons] at hx
    by_cases hc : p c = true
    · rw [if_pos hc] at hx
      rcases List.mem_cons.mp hx with rfl | hx'
      · exact hc
      · exact mem_takeWhile_true p cs x hx'
    · rw [if_neg hc] at hx
      simp at hx

theorem hasGap_gapRemoveL : ∀ l : List Char, hasGap (gapRemoveL l) = false := by
  intro l
  induction l using gapRemoveL.induct with
  | case1 => simp [gapRemoveL, hasGap]
  | case2 c cs hcond ih =>
    obtain ⟨rfl, h1, h2⟩ := hcond
    rw [gapRemoveL_cons_gap h1 h2]
    have hga : gapAt ('<' :: gapRemoveL (cs.dropWhile isJsWs).tail) = false := by
      refine gapAt_false_of_head ?_
      intro d hd
      have : d = '<' := by simpa using hd.symm
      rw [this]
      decide
    simp [hasGap, hga, ih]
  | case3 c cs hcond ih =>
    rw [gapRemoveL_cons_no hcond]
    simp only [hasGap, ih, Bool.or_false]
    by_cases hc : c = '>'
    · subst hc
      rw [show (decide (('>' : Char) = '>')) = true from rfl, Bool.true_and]
      by_cases hA : cs.takeWhile isJsWs ≠ []
      · have hB : (cs.dropWhile isJsWs).head? ≠ some '<' := fun hb => hcond ⟨rfl, hA, hb⟩
        have hrun : ∀ x ∈ cs.takeWhile isJsWs, isJsWs x = true := mem_takeWhile_true isJsWs cs
        have hg : gapRemoveL cs =
            cs.takeWhile isJsWs ++ gapRemoveL (cs.dropWhile isJsWs) := by
          conv_lhs => rw [← List.takeWhile_append_dropWhile isJsWs cs]
          exact gapRemoveL_ws_append _ _ hrun
        have hXhead : (gapRemoveL (cs.dropWhile isJsWs)).head? =
            (cs.dropWhile isJsWs).head? := gapRemoveL_head _
        have hXnw : ∀ d, (gapRemoveL (cs.dropWhile isJsWs)).head? = some d →
            isJsWs d = false := by
          intro d hd
          exact head_dropWhile_not isJsWs cs d (hXhead ▸ hd)
        have h5 : (cs.takeWhile isJsWs ++ gapRemoveL (cs.dropWhile isJsWs)).dropWhile isJsWs
            = (gapRemoveL (cs.dropWhile isJsWs)).dropWhile isJsWs :=
          dropWhile_append_all _ _ _ hrun
        have h6 : (gapRemoveL (cs.dropWhile isJsWs)).dropWhile isJsWs
            = gapRemoveL (cs.dropWhile isJsWs) := dropWhile_eq_self_of_head _ hXnw
        rw [hg]
        simp [gapAt, h5, h6, hXhead, hB]
      · push_neg at hA
        have hhead : ∀ d, cs.head? = some d → isJsWs d = false := by
          intro d hd
          cases cs with
          | nil => simp at hd
          | cons e es =>
            have hde : d = e := by simpa using hd.symm
            rw [List.takeWhile_cons] at hA
            by_cases he : isJsWs e = true
            · rw [if_pos he] at hA
              simp at hA
            · rw [hde]
              exact Bool.eq_false_iff.mpr he
        have : gapAt (gapRemoveL cs) = false := by
          refine gapAt_false_of_head ?_
          intro d hd
          exact hhead d ((gapRemoveL_head cs) ▸ hd)
        simp [this]
    · simp [hc]

theorem gapRemoveL_eq_self : ∀ {l : List Char}, hasGap l = false → gapRemoveL l = l := by
  intro l
  induction l using gapRemoveL.induct with
  | case1 => intro _; simp [gapRemoveL]
  | case2 c cs hcond ih =>
    intro hng
    obtain ⟨rfl, h1, h2⟩ := hcond
    exfalso
    simp [hasGap, gapAt, h1, h2] at hng
  | case3 c cs hcond ih =>
    intro hng
    have hcs : hasGap cs = false := by
      simp only [hasGap, Bool.or_eq_false_iff] at hng
      exact hng.2
    rw [gapRemoveL_cons_no hcond, ih hcs]

theorem chain'_dropWhile {R : α → α → Prop} (p : α → Bool) :
    ∀ {l : List α}, l.Chain' R → (l.dropWhile p).Chain' R := by
  intro l h
  induction l with
  | nil => simp
  | cons d ds ih =>
    rw [List.dropWhile_cons]
    split
    · exact ih h.tail
    · exact h

theorem gapRemoveL_ws_char :
    ∀ l : List Char, (∀ c ∈ l, isJsWs c = true → c = ' ') →
      ∀ c ∈ gapRemoveL l, isJsWs c = true → c = ' ' := by
  intro l
  induction l using gapRemoveL.induct with
  | case1 => intro _ c hc; simp [gapRemoveL] at hc
  | case2 c0 cs hcond ih =>
    obtain ⟨rfl, h1, h2⟩ := hcond
    intro hl x hx hwx
    rw [gapRemoveL_cons_gap h1 h2] at hx
    rcases List.mem_cons.mp hx with rfl | hx1
    · exact absurd hwx (by decide)
    rcases List.mem_cons.mp hx1 with rfl | hx2
    · exact absurd hwx (by decide)
    refine ih ?_ x hx2 hwx
    intro y hy hwy
    have : y ∈ cs := ((List.tail_sublist _).trans (List.dropWhile_sublist _)).subset hy
    exact hl y (List.mem_cons_of_mem _ this) hwy
  | case3 c0 cs hcond ih =>
    intro hl x hx hwx
    rw [gapRemoveL_cons_no hcond] at hx
    rcases List.mem_cons.mp hx with rfl | hx'
    · exact hl x (List.mem_cons_self _ _) hwx
    · exact ih (fun y hy hwy => hl y (List.mem_cons_of_mem _ hy) hwy) x hx' hwx

theorem gapRemoveL_chain :
    ∀ l : List Char,
      l.Chain' (fun a b => ¬(isJsWs a = true ∧ isJsWs b = true)) →
      (gapRemoveL l).Chain' (fun a b => ¬(isJsWs a = true ∧ isJsWs b = true)) := by
  intro l
  induction l using gapRemoveL.induct with
  | case1 => intro _; simp [gapRemoveL]
  | case2 c0 cs hcond ih =>
    obtain ⟨rfl, h1, h2⟩ := hcond
    intro hch
    rw [gapRemoveL_cons_gap h1 h2]
    rw [List.chain'_cons']
    refine ⟨fun y hy hcon => absurd hcon.1 (by decide), ?_⟩
    rw [List.chain'_cons']
    refine ⟨fun y hy hcon => absurd hcon.1 (by decide), ?_⟩
    exact ih (chain'_dropWhile isJsWs hch.tail).tail
  | case3 c0 cs hcond ih =>
    intro hch
    rw [gapRemoveL_cons_no hcond]
    rw [List.chain'_cons']
    constructor
    · intro y hy
      have hy' : y ∈ cs.head? := (gapRemoveL_head cs) ▸ hy
      exact (List.chain'_cons'.mp hch).1 y hy'
    · exact ih hch.tail

theorem wsNormal_gapRemoveL {l : List Char} (h : wsNormal l) : wsNormal (gapRemoveL l) :=
  ⟨gapRemoveL_ws_char l h.1, gapRemoveL_chain l h.2⟩

theorem hasGap_tail {l : List Char} (h : hasGap l = false) : hasGap l.tail = false := by
  cases l with
  | nil => simpa using h
  | cons c cs =>
    simp only [hasGap, Bool.or_eq_false_iff] at h
    exact h.2

theorem hasGap_dropWhile (p : Char → Bool) :
    ∀ {l : List Char}, hasGap l = false → hasGap (l.dropWhile p) = false := by
  intro l h
  induction l with
  | nil => simpa using h
  | cons c cs ih =>
    rw [List.dropWhile_cons]
    split
    · exact ih (hasGap_tail h)
    · exact h

theorem takeWhile_dropWhile_append_of_ne (p : α → Bool) :
    ∀ (a b : List α), a.dropWhile p ≠ [] →
      (a ++ b).takeWhile p = a.takeWhile p ∧ (a ++ b).dropWhile p = a.dropWhile p ++ b
  | [], _, h => absurd rfl h
  | c :: a, b, h => by
    by_cases hc : p c = true
    · rw [List.dropWhile_cons, if_pos hc] at h
      obtain ⟨ht, hd⟩ := takeWhile_dropWhile_append_of_ne p a b h
      constructor
      · rw [List.cons_append, List.takeWhile_cons, if_pos hc, ht,
          List.takeWhile_cons, if_pos hc]
      · rw [List.cons_append, List.dropWhile_cons, if_pos hc, hd,
          List.dropWhile_cons, if_pos hc]
    · constructor
      · rw [List.cons_append, List.takeWhile_cons, if_neg hc,
          List.takeWhile_cons, if_neg hc]
      · rw [List.cons_append, List.dropWhile_cons, if_neg hc,
          List.dropWhile_cons, if_neg hc, List.cons_append]

theorem gapAt_append {a b : List Char} (h : gapAt a = true) : gapAt (a ++ b) = true := by
  simp only [gapAt, decide_eq_true_eq] at h ⊢
  obtain ⟨h1, h2⟩ := h
  have hres : a.dropWhile isJsWs ≠ [] := by
    intro hnil
    rw [hnil] at h2
    simp at h2
  obtain ⟨ht, hd⟩ := takeWhile_dropWhile_append_of_ne isJsWs a b hres
  refine ⟨by rw [ht]; exact h1, ?_⟩
  rw [hd]
  cases hx : a.dropWhile isJsWs with
  | nil => exact absurd hx hres
  | cons e es =>
    rw [hx] at h2
    have he : e = '<' := by simpa using h2
    rw [List.cons_append]
    simp [he]

theorem hasGap_append_left : ∀ {a b : List Char}, hasGap (a ++ b) = false → hasGap a = false := by
  intro a
  induction a with
  | nil => intro b _; rfl
  | cons c a ih =>
    intro b h
    rw [List.cons_append] at h
    simp only [hasGap, Bool.or_eq_false_iff] at h ⊢
    refine ⟨?_, ih h.2⟩
    rcases Bool.and_eq_false_iff.mp h.1 with hc | hg
    · simp [hc]
    · have : gapAt a = false := by
        cases hga : gapAt a with
        | false => rfl
        | true => exact absurd (@gapAt_append a b hga) (by simp [hg])
      simp [this]

theorem hasGap_trimL {l : List Char} (h : hasGap l = false) : hasGap (trimL l) = false := by
  unfold trimL
  have hu2 : hasGap (l.dropWhile isJsWs) = false := hasGap_dropWhile _ h
  have hdec : l.dropWhile isJsWs =
      ((l.dropWhile isJsWs).reverse.dropWhile isJsWs).reverse ++
        ((l.dropWhile isJsWs).reverse.takeWhile isJsWs).reverse := by
    conv_lhs => rw [← List.reverse_reverse (l.dropWhile isJsWs),
      ← List.takeWhile_append_dropWhile isJsWs (l.dropWhile isJsWs).reverse]
    rw [List.reverse_append]
  exact hasGap_append_left (hdec ▸ hu2)

theorem wsNormal_dropWhile (p : Char → Bool) {l : List Char} (h : wsNormal l) :
    wsNormal (l.dropWhile p) :=
  ⟨fun c hc hwc => h.1 c ((List.dropWhile_sublist p).subset hc) hwc, chain'_dropWhile p h.2⟩

theorem wsNormal_reverse {l : List Char} (h : wsNormal l) : wsNormal l.reverse := by
  refine ⟨fun c hc hwc => h.1 c (by simpa using hc) hwc, ?_⟩
  rw [List.chain'_reverse]
  exact h.2.imp (fun a b hab hcon => hab ⟨hcon.2, hcon.1⟩)

theorem wsNormal_trimL {l : List Char} (h : wsNormal l) : wsNormal (trimL l) := by
  unfold trimL
  exact wsNormal_reverse (wsNormal_dropWhile _ (wsNormal_reverse (wsNormal_dropWhile _ h)))

theorem getLast?_dropWhile_of_ne (p : α → Bool) (l : List α)
    (h : l.dropWhile p ≠ []) : (l.dropWhile p).getLast? = l.getLast? := by
  conv_rhs => rw [← List.takeWhile_append_dropWhile p l]
  rw [List.getLast?_append]
  cases hx : (l.dropWhile p).getLast? with
  | none =>
    rw [List.getLast?_eq_none_iff] at hx
    exact absurd hx h
  | some x => rfl

theorem trimL_head_not_ws (l : List Char) :
    ∀ c, (trimL l).head? = some c → isJsWs c = false := by
  intro c hc
  unfold trimL at hc
  rw [List.head?_reverse] at hc
  by_cases hw : (l.dropWhile isJsWs).reverse.dropWhile isJsWs = []
  · rw [hw] at hc
    simp at hc
  · rw [getLast?_dropWhile_of_ne _ _ hw] at hc
    rw [List.getLast?_reverse] at hc
    exact head_dropWhile_not isJsWs l c hc

theorem trimL_getLast_not_ws (l : List Char) :
    ∀ c, (trimL l).getLast? = some c → isJsWs c = false := by
  intro c hc
  unfold trimL at hc
  rw [List.getLast?_reverse] at hc
  exact head_dropWhile_not isJsWs _ c hc

theorem trimL_eq_self {l : List Char}
    (hh : ∀ c, l.head? = some c → isJsWs c = false)
    (hl : ∀ c, l.getLast? = some c → isJsWs c = false) : trimL l = l := by
  unfold trimL
  rw [dropWhile_eq_self_of_head isJsWs hh]
  rw [dropWhile_eq_self_of_head isJsWs
    (fun c hc => hl c (by rwa [List.head?_reverse] at hc))]
  exact List.reverse_reverse l

theorem trimL_idem (l : List Char) : trimL (trimL l) = trimL l :=
  trimL_eq_self (trimL_head_not_ws l) (trimL_getLast_not_ws l)

/-- Claim C8: the HTML post-processing step `cleanHtmlContent` — collapse
whitespace runs, remove inter-tag whitespace gaps, trim — is idempotent:
applying it to its own output changes nothing. -/
theorem cleanHtmlContent_idempotent (s : String) :
    cleanHtmlContent (cleanHtmlContent s) = cleanHtmlContent s := by
  unfold cleanHtmlContent
  have hts : ((trimL (gapRemoveL (collapseWsL s.toList))).asString).toList
      = trimL (gapRemoveL (collapseWsL s.toList)) := rfl
  rw [hts]
  set m := trimL (gapRemoveL (collapseWsL s.toList)) with hm
  have h1 : wsNormal m := by
    rw [hm]
    exact wsNormal_trimL (wsNormal_gapRemoveL (wsNormal_collapseWsL _))
  have h2 : hasGap m = false := by
    rw [hm]
    exact hasGap_trimL (hasGap_gapRemoveL _)
  have e1 : collapseWsL m = m := collapseWsGo_eq_self h1
  rw [e1, gapRemoveL_eq_self h2, hm, trimL_idem]
